import Mathlib

/-!
Verification of the recursive file-sorting utility in task_1.py.

The program walks a source directory depth-first and moves every regular
file into a bucket subdirectory of a destination root, the bucket being
named by the file's lowercased extension (or the literal no_extension).
A subdirectory whose resolved path equals the resolved destination root
is skipped; per-file move errors and per-directory access errors are
caught and printed.

Embedding choices:
- Filesystem paths are canonical absolute paths, modelled as lists of
  components; since symlink loops are out of scope, Path.resolve is the
  identity on these canonical paths and path comparison is list equality.
- The directory tree is a finite inductive tree of entries, classified
  the way is_dir / is_file classify them (everything else is other).
- The fallible primitives (iterdir on a directory, mkdir of a bucket
  directory, shutil.move of a file) are driven by a failure oracle that
  says, per path, whether the call raises OSError.
- A run is the list of events the Python code performs, in order:
  successful enumerations, directory-level diagnostics (the outer
  except), bucket mkdirs, successful moves, and per-file move
  diagnostics (the inner except).
- Python str.lower is modelled by Char.toLower; both only matter on the
  ASCII names the claims discuss.
-/

namespace FileSorter

/-- A canonical absolute filesystem path, as its list of components. -/
abbrev FsPath := List String

/-- Core of Python's PurePath.suffix computation name.rfind with a dot:
split a base name at its last dot into the parts before and after the
dot; none when the name contains no dot.  The part after the last dot
contains no dot. -/
def splitLastDot : List Char → Option (List Char × List Char)
  | [] => none
  | c :: rest =>
    match splitLastDot rest with
    | some (b, a) => some (c :: b, a)
    | none => if c = '.' then some ([], rest) else none

/-- Python pathlib PurePath.suffix on a base name: the substring from
the last dot on, provided that dot is neither the first nor the last
character of the name (the 0 < i < len(name) - 1 guard in CPython);
empty otherwise. -/
def pySuffix (l : List Char) : List Char :=
  match splitLastDot l with
  | none => []
  | some (b, a) => if b ≠ [] ∧ a ≠ [] then '.' :: a else []

/-- ASCII lowercasing of a name, modelling Python str.lower on the
ASCII names in scope. -/
def lowerStr (s : String) : String :=
  (s.toList.map Char.toLower).asString

/-- Lines 44-46 of task_1.py: the suffix is lowercased, its leading
dots stripped, and an empty result replaced by the no_extension
bucket. -/
def bucketOf (name : String) : String :=
  let s := ((pySuffix name.toList).map Char.toLower).dropWhile (fun c => c = '.')
  if s = [] then "no_extension" else s.asString

/-- A directory entry as classified by is_dir / is_file on line 39/43:
a subdirectory with its children, a regular file, or anything else
(neither branch matches, the entry is ignored). -/
inductive Entry where
  | dir (name : String) (children : List Entry)
  | file (name : String)
  | other (name : String)

/-- Which filesystem primitives raise OSError, by path: iterdir on a
directory (line 38), mkdir of a bucket directory (line 49), shutil.move
of a file (line 54).  One run of the program corresponds to one
oracle. -/
structure Oracle where
  iterFails : FsPath → Bool
  mkdirFails : FsPath → Bool
  moveFails : FsPath → Bool

/-- The observable steps of a run of copy_and_sort, in program order. -/
inductive Event where
  | enter (d : FsPath)
  | dirFail (d : FsPath)
  | mkdir (d : FsPath)
  | moveOk (src tgt : FsPath)
  | moveFail (f : FsPath)
deriving DecidableEq, Repr

/-- The body of the for loop of copy_and_sort (lines 38-56), processing
the (snapshot) children of the directory cur in order.  A subdirectory
equal to the destination root is skipped (lines 40-41); otherwise the
recursive call's own try/except wraps its enumeration (line 37/57).  For
a file, the bucket directory is made (line 49) and the move attempted
inside the inner try (lines 53-56); an OSError from mkdir is not caught
by the inner handler, so it aborts the remaining entries of cur and is
reported by the outer handler as a directory-level diagnostic naming
cur (line 57-58). -/
def walkEntries (o : Oracle) (dst : FsPath) : FsPath → List Entry → List Event
  | _, [] => []
  | cur, Entry.other _ :: rest => walkEntries o dst cur rest
  | cur, Entry.dir n sub :: rest =>
    if cur ++ [n] = dst then walkEntries o dst cur rest
    else
      (if o.iterFails (cur ++ [n]) then [Event.dirFail (cur ++ [n])]
       else Event.enter (cur ++ [n]) :: walkEntries o dst (cur ++ [n]) sub)
        ++ walkEntries o dst cur rest
  | cur, Entry.file n :: rest =>
    if o.mkdirFails (dst ++ [bucketOf n]) then [Event.dirFail cur]
    else
      Event.mkdir (dst ++ [bucketOf n]) ::
        (if o.moveFails (cur ++ [n]) then
          Event.moveFail (cur ++ [n]) :: walkEntries o dst cur rest
         else
          Event.moveOk (cur ++ [n]) (dst ++ [bucketOf n, n]) :: walkEntries o dst cur rest)

/-- copy_and_sort(src, dst_root), lines 20-58: enumerate the current
directory inside the outer try; on OSError report a diagnostic naming
the directory, otherwise process its children. -/
def copy_and_sort (o : Oracle) (dst cur : FsPath) (es : List Entry) : List Event :=
  if o.iterFails cur then [Event.dirFail cur]
  else Event.enter cur :: walkEntries o dst cur es

/-- The successful moves (from, to) of a trace. -/
def okMoves (tr : List Event) : List (FsPath × FsPath) :=
  tr.filterMap fun e =>
    match e with
    | Event.moveOk a b => some (a, b)
    | _ => none

/-- The per-file move-failure diagnostics of a trace: the source paths
of the files whose move raised. -/
def failMoves (tr : List Event) : List FsPath :=
  tr.filterMap fun e =>
    match e with
    | Event.moveFail a => some a
    | _ => none

/-- The files the walk can reach, as (directory path, base name) pairs:
all files of the tree except those inside a subdirectory equal to the
destination root.  Mirrors the recursion structure of walkEntries. -/
def filesUnder (dst : FsPath) : FsPath → List Entry → List (FsPath × String)
  | _, [] => []
  | cur, Entry.other _ :: rest => filesUnder dst cur rest
  | cur, Entry.dir n sub :: rest =>
    (if cur ++ [n] = dst then [] else filesUnder dst (cur ++ [n]) sub)
      ++ filesUnder dst cur rest
  | cur, Entry.file n :: rest => (cur, n) :: filesUnder dst cur rest

mutual

/-- Depth of a single entry: directories are one deeper than their
deepest child, files and other entries have depth zero. -/
def depthE : Entry → Nat
  | Entry.dir _ sub => depthL sub + 1
  | Entry.file _ => 0
  | Entry.other _ => 0

/-- Depth of a list of sibling entries. -/
def depthL : List Entry → Nat
  | [] => 0
  | e :: rest => max (depthE e) (depthL rest)

end

/-- walkEntries with an explicit recursion-depth budget: descending
into a subdirectory costs one unit of fuel, siblings share the budget;
none when the budget is exhausted before a descent. -/
def walkEntriesF (o : Oracle) (dst : FsPath) : Nat → FsPath → List Entry → Option (List Event)
  | _, _, [] => some []
  | fuel, cur, Entry.other _ :: rest => walkEntriesF o dst fuel cur rest
  | fuel, cur, Entry.dir n sub :: rest =>
    if cur ++ [n] = dst then walkEntriesF o dst fuel cur rest
    else
      match fuel with
      | 0 => none
      | Nat.succ f =>
        match
          (if o.iterFails (cur ++ [n]) then some [Event.dirFail (cur ++ [n])]
           else (walkEntriesF o dst f (cur ++ [n]) sub).map
             (fun t => Event.enter (cur ++ [n]) :: t)) with
        | none => none
        | some a =>
          match walkEntriesF o dst (Nat.succ f) cur rest with
          | none => none
          | some b => some (a ++ b)
  | fuel, cur, Entry.file n :: rest =>
    if o.mkdirFails (dst ++ [bucketOf n]) then some [Event.dirFail cur]
    else
      (walkEntriesF o dst fuel cur rest).map fun t =>
        Event.mkdir (dst ++ [bucketOf n]) ::
          (if o.moveFails (cur ++ [n]) then
            Event.moveFail (cur ++ [n]) :: t
           else
            Event.moveOk (cur ++ [n]) (dst ++ [bucketOf n, n]) :: t)

/-- copy_and_sort with an explicit recursion-depth budget for the walk
below the initial directory. -/
def copyAndSortF (o : Oracle) (dst : FsPath) (fuel : Nat) (cur : FsPath) (es : List Entry) :
    Option (List Event) :=
  if o.iterFails cur then some [Event.dirFail cur]
  else (walkEntriesF o dst fuel cur es).map fun t => Event.enter cur :: t

/-- The observable steps of main (lines 92-117). -/
inductive MainEvent where
  | srcDiag
  | dstDiag
  | mkdirDst
  | sortRun (tr : List Event)
  | doneMsg
deriving DecidableEq, Repr

/-- main (lines 102-117): after resolving both paths, reject a source
that does not exist or is not a directory before touching anything;
then create the destination root, aborting on OSError; then run the
sorter once and print the completion notice. -/
def mainRun (srcExists srcIsDir dstMkFails : Bool) (o : Oracle) (src dst : FsPath)
    (tree : List Entry) : List MainEvent :=
  if !srcExists || !srcIsDir then [MainEvent.srcDiag]
  else if dstMkFails then [MainEvent.dstDiag]
  else [MainEvent.mkdirDst, MainEvent.sortRun (copy_and_sort o dst src tree), MainEvent.doneMsg]

/-- Modelled from the claim's words, for refinement comparison only:
the bucket is the lowercased substring after the last dot of the base
name, and no_extension exactly when that substring is empty or the
name has no dot. -/
def claimBucket (name : String) : String :=
  match splitLastDot name.toList with
  | none => "no_extension"
  | some (_, a) => if a = [] then "no_extension" else (a.map Char.toLower).asString

/-- Modelled from the amended claim's words, for refinement comparison
only: as claimBucket, except that a name whose last dot is its first
character (a leading-dot name) also has no extension. -/
def amendedBucket (name : String) : String :=
  match splitLastDot name.toList with
  | none => "no_extension"
  | some (b, a) => if b = [] ∨ a = [] then "no_extension" else (a.map Char.toLower).asString

/-- The failure-free oracle: no filesystem primitive raises. -/
def noFail : Oracle :=
  { iterFails := fun _ => false, mkdirFails := fun _ => false, moveFails := fun _ => false }

/-- An oracle whose only failure is the move of the file bad.txt lying
directly in the directory src. -/
def oMove : Oracle :=
  { iterFails := fun _ => false, mkdirFails := fun _ => false,
    moveFails := fun p => decide (p = ["src", "bad.txt"]) }

/-- An oracle whose only failure is enumerating the directory
src/locked. -/
def oIter : Oracle :=
  { iterFails := fun p => decide (p = ["src", "locked"]), mkdirFails := fun _ => false,
    moveFails := fun _ => false }

/-- An oracle whose only failure is creating the bucket directory
dst/txt. -/
def oMkdir : Oracle :=
  { iterFails := fun _ => false, mkdirFails := fun p => decide (p = ["dst", "txt"]),
    moveFails := fun _ => false }

/-- The move outcome of each reachable file, in traversal order. -/
def moveResult (o : Oracle) (dst : FsPath) (x : FsPath × String) : Option (FsPath × FsPath) :=
  if o.moveFails (x.1 ++ [x.2]) then none
  else some (x.1 ++ [x.2], dst ++ [bucketOf x.2, x.2])

/-- The failure outcome of each reachable file, in traversal order. -/
def failResult (o : Oracle) (x : FsPath × String) : Option FsPath :=
  if o.moveFails (x.1 ++ [x.2]) then some (x.1 ++ [x.2]) else none

example : bucketOf "a.TXT" = "txt" := by decide
example : bucketOf "README" = "no_extension" := by decide
example : bucketOf ".bashrc" = "no_extension" := by decide
example : bucketOf "x." = "no_extension" := by decide
example : bucketOf "a.tar.gz" = "gz" := by decide

theorem splitLastDot_none_of_no_dot {l : List Char} (h : '.' ∉ l) : splitLastDot l = none := by
  induction l with
  | nil => rfl
  | cons c rest ih =>
    have hc : c ≠ '.' := fun hc => h (hc ▸ List.mem_cons_self c rest)
    have hr : '.' ∉ rest := fun hm => h (List.mem_cons_of_mem c hm)
    simp [splitLastDot, ih hr, hc]

theorem no_dot_of_splitLastDot_none {l : List Char} (h : splitLastDot l = none) : '.' ∉ l := by
  induction l with
  | nil => simp
  | cons c rest ih =>
    simp only [splitLastDot] at h
    cases hr : splitLastDot rest with
    | some p => rw [hr] at h; simp at h
    | none =>
      rw [hr] at h
      by_cases hc : c = '.'
      · simp [hc] at h
      · simp only [List.mem_cons, not_or]
        exact ⟨fun he => hc he.symm, ih hr⟩

theorem splitLastDot_eq {l b a : List Char} (h : splitLastDot l = some (b, a)) :
    l = b ++ '.' :: a := by
  induction l generalizing b a with
  | nil => simp [splitLastDot] at h
  | cons c rest ih =>
    simp only [splitLastDot] at h
    cases hr : splitLastDot rest with
    | some p =>
      rw [hr] at h
      obtain ⟨b', a'⟩ := p
      simp only [Option.some.injEq, Prod.mk.injEq] at h
      obtain ⟨hb, ha⟩ := h
      subst hb
      subst ha
      simp [ih hr]
    | none =>
      rw [hr] at h
      by_cases hc : c = '.'
      · rw [if_pos hc] at h
        simp only [Option.some.injEq, Prod.mk.injEq] at h
        obtain ⟨hb, ha⟩ := h
        subst hb
        subst ha
        simp [hc]
      · simp [hc] at h

theorem splitLastDot_no_dot_right {l b a : List Char} (h : splitLastDot l = some (b, a)) :
    '.' ∉ a := by
  induction l generalizing b a with
  | nil => simp [splitLastDot] at h
  | cons c rest ih =>
    simp only [splitLastDot] at h
    cases hr : splitLastDot rest with
    | some p =>
      rw [hr] at h
      obtain ⟨b', a'⟩ := p
      simp only [Option.some.injEq, Prod.mk.injEq] at h
      exact h.2 ▸ ih hr
    | none =>
      rw [hr] at h
      by_cases hc : c = '.'
      · rw [if_pos hc] at h
        simp only [Option.some.injEq, Prod.mk.injEq] at h
        exact h.2 ▸ no_dot_of_splitLastDot_none hr
      · simp [hc] at h

theorem splitLastDot_append {b a : List Char} (h : '.' ∉ a) :
    splitLastDot (b ++ '.' :: a) = some (b, a) := by
  induction b with
  | nil => simp [splitLastDot, splitLastDot_none_of_no_dot h]
  | cons c rest ih => simp [splitLastDot, ih]

theorem toLower_ne_dot {c : Char} (h : c ≠ '.') : Char.toLower c ≠ '.' := by
  intro hc
  simp only [Char.toLower] at hc
  split at hc
  · rename_i hr
    obtain ⟨h1, h2⟩ := hr
    interval_cases hn : c.toNat <;> exact absurd hc (by decide)
  · exact h hc

theorem dropWhile_no_dot {l : List Char} (h : '.' ∉ l) :
    l.dropWhile (fun c => c = '.') = l := by
  cases l with
  | nil => rfl
  | cons c rest =>
    have hc : c ≠ '.' := fun he => h (he ▸ List.mem_cons_self c rest)
    rw [List.dropWhile_cons_of_neg]
    simp [hc]

theorem no_dot_map_toLower {l : List Char} (h : '.' ∉ l) : '.' ∉ l.map Char.toLower := by
  intro hm
  obtain ⟨c, hc, he⟩ := List.mem_map.mp hm
  have hc' : c ≠ '.' := fun hcd => h (hcd ▸ hc)
  exact toLower_ne_dot hc' he

theorem bucketOf_eq_of_split {name : String} {b a : List Char}
    (hs : splitLastDot name.toList = some (b, a)) (hb : b ≠ []) (ha : a ≠ []) :
    bucketOf name = (a.map Char.toLower).asString := by
  have hnd : '.' ∉ a := splitLastDot_no_dot_right hs
  have hdot : Char.toLower '.' = '.' := by decide
  have hs2 : splitLastDot name.data = some (b, a) := hs
  have hpy : pySuffix name.toList = '.' :: a := by
    simp [pySuffix, hs, hs2, hb, ha]
  have hstep : ((pySuffix name.toList).map Char.toLower).dropWhile (fun c => c = '.')
      = a.map Char.toLower := by
    rw [hpy]
    simp only [List.map_cons, hdot]
    rw [List.dropWhile_cons_of_pos (by simp)]
    exact dropWhile_no_dot (no_dot_map_toLower hnd)
  simp only [bucketOf]
  rw [hstep]
  simp [ha]

theorem bucketOf_concat {stem ext : String} (hstem : stem.toList ≠ []) (hext : ext.toList ≠ [])
    (hdot : '.' ∉ ext.toList) :
    bucketOf (stem ++ "." ++ ext) = lowerStr ext := by
  have hl : (stem ++ "." ++ ext).toList = stem.toList ++ '.' :: ext.toList := by
    show (stem ++ "." ++ ext).data = stem.data ++ '.' :: ext.data
    rw [String.data_append, String.data_append]
    rw [show (".".data) = ['.'] from rfl]
    rw [List.append_assoc]
    rfl
  have hs : splitLastDot (stem ++ "." ++ ext).toList = some (stem.toList, ext.toList) := by
    rw [hl]
    exact splitLastDot_append hdot
  rw [bucketOf_eq_of_split hs hstem hext]
  rfl

theorem self_isPrefixOf_append (dst l : FsPath) : dst.isPrefixOf (dst ++ l) = true := by
  rw [List.isPrefixOf_iff_prefix]
  exact List.prefix_append dst l

theorem not_under_child {dst cur : FsPath} {n : String}
    (hcur : dst.isPrefixOf cur = false) (hne : cur ++ [n] ≠ dst) :
    dst.isPrefixOf (cur ++ [n]) = false := by
  rw [Bool.eq_false_iff]
  intro h
  rw [List.isPrefixOf_iff_prefix] at h
  rcases List.prefix_concat_iff.mp h with h1 | h2
  · exact hne h1.symm
  · rw [← List.isPrefixOf_iff_prefix] at h2
    rw [h2] at hcur
    exact Bool.true_eq_false.mp hcur

theorem filesUnder_not_under {dst : FsPath} :
    ∀ cur es, dst.isPrefixOf cur = false →
      ∀ x ∈ filesUnder dst cur es, dst.isPrefixOf x.1 = false := by
  intro cur es
  induction cur, es using filesUnder.induct dst with
  | case1 cur => intro _ x hx; simp [filesUnder] at hx
  | case2 cur name rest ih =>
    intro hcur x hx
    rw [filesUnder] at hx
    exact ih hcur x hx
  | case3 cur n sub rest ihsub ihrest =>
    intro hcur x hx
    rw [filesUnder] at hx
    rcases List.mem_append.mp hx with hx1 | hx2
    · by_cases hd : cur ++ [n] = dst
      · rw [if_pos hd] at hx1
        simp at hx1
      · rw [if_neg hd] at hx1
        exact ihsub (not_under_child hcur hd) x hx1
    · exact ihrest hcur x hx2
  | case4 cur n rest ih =>
    intro hcur x hx
    rw [filesUnder] at hx
    rcases List.mem_cons.mp hx with hx1 | hx2
    · rw [hx1]
      exact hcur
    · exact ih hcur x hx2

theorem file_mem_filesUnder {n : String} {dst : FsPath} :
    ∀ cur es, Entry.file n ∈ es → (cur, n) ∈ filesUnder dst cur es := by
  intro cur es
  induction es with
  | nil => intro h; simp at h
  | cons e rest ih =>
    intro h
    rcases List.mem_cons.mp h with h1 | h2
    · rw [← h1]
      rw [filesUnder]
      exact List.mem_cons_self _ _
    · cases e with
      | dir d sub =>
        rw [filesUnder]
        exact List.mem_append_right _ (ih h2)
      | file m =>
        rw [filesUnder]
        exact List.mem_cons_of_mem _ (ih h2)
      | other m =>
        rw [filesUnder]
        exact ih h2

theorem nested_file_mem_filesUnder {d m : String} {sub : List Entry} {dst : FsPath} :
    ∀ cur es, Entry.dir d sub ∈ es → cur ++ [d] ≠ dst → Entry.file m ∈ sub →
      (cur ++ [d], m) ∈ filesUnder dst cur es := by
  intro cur es
  induction es with
  | nil => intro h; simp at h
  | cons e rest ih =>
    intro h hne hm
    rcases List.mem_cons.mp h with h1 | h2
    · rw [← h1]
      rw [filesUnder]
      refine List.mem_append_left _ ?h
      rw [if_neg hne]
      exact file_mem_filesUnder _ _ hm
    · cases e with
      | dir d' sub' =>
        rw [filesUnder]
        exact List.mem_append_right _ (ih h2 hne hm)
      | file m' =>
        rw [filesUnder]
        exact List.mem_cons_of_mem _ (ih h2 hne hm)
      | other m' =>
        rw [filesUnder]
        exact ih h2 hne hm

@[simp] theorem okMoves_nil : okMoves [] = [] := rfl

@[simp] theorem okMoves_enter (d : FsPath) (tr : List Event) :
    okMoves (Event.enter d :: tr) = okMoves tr := rfl

@[simp] theorem okMoves_dirFail (d : FsPath) (tr : List Event) :
    okMoves (Event.dirFail d :: tr) = okMoves tr := rfl

@[simp] theorem okMoves_mkdir (d : FsPath) (tr : List Event) :
    okMoves (Event.mkdir d :: tr) = okMoves tr := rfl

@[simp] theorem okMoves_moveFail (f : FsPath) (tr : List Event) :
    okMoves (Event.moveFail f :: tr) = okMoves tr := rfl

@[simp] theorem okMoves_moveOk (a b : FsPath) (tr : List Event) :
    okMoves (Event.moveOk a b :: tr) = (a, b) :: okMoves tr := rfl

@[simp] theorem okMoves_append (a b : List Event) :
    okMoves (a ++ b) = okMoves a ++ okMoves b := by
  simp [okMoves, List.filterMap_append]

@[simp] theorem failMoves_nil : failMoves [] = [] := rfl

@[simp] theorem failMoves_enter (d : FsPath) (tr : List Event) :
    failMoves (Event.enter d :: tr) = failMoves tr := rfl

@[simp] theorem failMoves_dirFail (d : FsPath) (tr : List Event) :
    failMoves (Event.dirFail d :: tr) = failMoves tr := rfl

@[simp] theorem failMoves_mkdir (d : FsPath) (tr : List Event) :
    failMoves (Event.mkdir d :: tr) = failMoves tr := rfl

@[simp] theorem failMoves_moveFail (f : FsPath) (tr : List Event) :
    failMoves (Event.moveFail f :: tr) = f :: failMoves tr := rfl

@[simp] theorem failMoves_moveOk (a b : FsPath) (tr : List Event) :
    failMoves (Event.moveOk a b :: tr) = failMoves tr := rfl

@[simp] theorem failMoves_append (a b : List Event) :
    failMoves (a ++ b) = failMoves a ++ failMoves b := by
  simp [failMoves, List.filterMap_append]

/-- When no directory enumeration and no bucket mkdir fails, the
successful moves of a walk are exactly the reachable files whose move
does not fail, each sent from its original path to its extension
bucket under the destination root. -/
theorem okMoves_walk {o : Oracle} {dst : FsPath}
    (hIter : ∀ q, o.iterFails q = false) (hMk : ∀ q, o.mkdirFails q = false) :
    ∀ cur es, okMoves (walkEntries o dst cur es) =
      (filesUnder dst cur es).filterMap (moveResult o dst) := by
  intro cur es
  induction cur, es using walkEntries.induct o dst with
  | case1 cur => simp [walkEntries, filesUnder]
  | case2 cur name rest ih =>
    rw [walkEntries, filesUnder]
    exact ih
  | case3 cur n sub rest hskip ih =>
    rw [walkEntries, filesUnder, if_pos hskip, if_pos hskip]
    simpa using ih
  | case4 cur n sub rest hne ihsub ihrest =>
    rw [walkEntries, filesUnder, if_neg hne, if_neg hne]
    simp [hIter, List.filterMap_append, ihsub, ihrest]
  | case5 cur n rest hmk =>
    rw [hMk] at hmk
    simp at hmk
  | case6 cur n rest hmk ih =>
    rw [walkEntries, filesUnder, if_neg hmk]
    by_cases hmv : o.moveFails (cur ++ [n]) = true
    · simp [hmv, ih, List.filterMap_cons, moveResult]
    · simp only [Bool.not_eq_true] at hmv
      simp [hmv, ih, List.filterMap_cons, moveResult]

/-- When no directory enumeration and no bucket mkdir fails, the
per-file move diagnostics of a walk are exactly the reachable files
whose move fails, named by their original path. -/
theorem failMoves_walk {o : Oracle} {dst : FsPath}
    (hIter : ∀ q, o.iterFails q = false) (hMk : ∀ q, o.mkdirFails q = false) :
    ∀ cur es, failMoves (walkEntries o dst cur es) =
      (filesUnder dst cur es).filterMap (failResult o) := by
  intro cur es
  induction cur, es using walkEntries.induct o dst with
  | case1 cur => simp [walkEntries, filesUnder]
  | case2 cur name rest ih =>
    rw [walkEntries, filesUnder]
    exact ih
  | case3 cur n sub rest hskip ih =>
    rw [walkEntries, filesUnder, if_pos hskip, if_pos hskip]
    simpa using ih
  | case4 cur n sub rest hne ihsub ihrest =>
    rw [walkEntries, filesUnder, if_neg hne, if_neg hne]
    simp [hIter, List.filterMap_append, ihsub, ihrest]
  | case5 cur n rest hmk =>
    rw [hMk] at hmk
    simp at hmk
  | case6 cur n rest hmk ih =>
    rw [walkEntries, filesUnder, if_neg hmk]
    by_cases hmv : o.moveFails (cur ++ [n]) = true
    · simp [hmv, ih, List.filterMap_cons, failResult]
    · simp only [Bool.not_eq_true] at hmv
      simp [hmv, ih, List.filterMap_cons, failResult]

/-- Below a directory that is not at or under the destination root, the
walk never enumerates a directory at or under the destination root, and
every moved file sits in a parent directory not at or under the
destination root. -/
theorem walk_not_under {o : Oracle} {dst : FsPath} :
    ∀ cur es, dst.isPrefixOf cur = false →
      (∀ p, Event.enter p ∈ walkEntries o dst cur es → dst.isPrefixOf p = false)
      ∧ (∀ a b, Event.moveOk a b ∈ walkEntries o dst cur es →
          ∃ q m, a = q ++ [m] ∧ dst.isPrefixOf q = false) := by
  intro cur es
  induction cur, es using walkEntries.induct o dst with
  | case1 cur =>
    intro hcur
    constructor
    · intro p hp
      simp [walkEntries] at hp
    · intro a b hab
      simp [walkEntries] at hab
  | case2 cur name rest ih =>
    intro hcur
    rw [walkEntries]
    exact ih hcur
  | case3 cur n sub rest hskip ih =>
    intro hcur
    rw [walkEntries, if_pos hskip]
    exact ih hcur
  | case4 cur n sub rest hne ihsub ihrest =>
    intro hcur
    have hp : dst.isPrefixOf (cur ++ [n]) = false := not_under_child hcur hne
    rw [walkEntries, if_neg hne]
    constructor
    · intro p hmem
      rcases List.mem_append.mp hmem with h1 | h2
      · by_cases hit : o.iterFails (cur ++ [n]) = true
        · rw [if_pos hit] at h1
          simp at h1
        · rw [if_neg hit] at h1
          rcases List.mem_cons.mp h1 with h3 | h4
          · injection h3 with h5
            rw [h5]
            exact hp
          · exact (ihsub hp).1 p h4
      · exact (ihrest hcur).1 p h2
    · intro a b hmem
      rcases List.mem_append.mp hmem with h1 | h2
      · by_cases hit : o.iterFails (cur ++ [n]) = true
        · rw [if_pos hit] at h1
          simp at h1
        · rw [if_neg hit] at h1
          rcases List.mem_cons.mp h1 with h3 | h4
          · exact absurd h3 (by simp)
          · exact (ihsub hp).2 a b h4
      · exact (ihrest hcur).2 a b h2
  | case5 cur n rest hmk =>
    intro hcur
    rw [walkEntries, if_pos hmk]
    constructor
    · intro p hp
      simp at hp
    · intro a b hab
      simp at hab
  | case6 cur n rest hmk ih =>
    intro hcur
    rw [walkEntries, if_neg hmk]
    constructor
    · intro p hmem
      rcases List.mem_cons.mp hmem with h1 | h2
      · exact absurd h1 (by simp)
      · by_cases hmv : o.moveFails (cur ++ [n]) = true
        · rw [if_pos hmv] at h2
          rcases List.mem_cons.mp h2 with h3 | h4
          · exact absurd h3 (by simp)
          · exact (ih hcur).1 p h4
        · rw [if_neg hmv] at h2
          rcases List.mem_cons.mp h2 with h3 | h4
          · exact absurd h3 (by simp)
          · exact (ih hcur).1 p h4
    · intro a b hmem
      rcases List.mem_cons.mp hmem with h1 | h2
      · exact absurd h1 (by simp)
      · by_cases hmv : o.moveFails (cur ++ [n]) = true
        · rw [if_pos hmv] at h2
          rcases List.mem_cons.mp h2 with h3 | h4
          · exact absurd h3 (by simp)
          · exact (ih hcur).2 a b h4
        · rw [if_neg hmv] at h2
          rcases List.mem_cons.mp h2 with h3 | h4
          · injection h3 with h5 h6
            exact ⟨cur, n, h5, hcur⟩
          · exact (ih hcur).2 a b h4

/-- A fuel budget of the tree depth is enough: the fueled walk with any
budget at least depthL es returns exactly the unfueled walk, so the
recursion depth of walkEntries is bounded by the depth of the directory
tree being walked. -/
theorem walkEntriesF_eq {o : Oracle} {dst : FsPath} :
    ∀ fuel cur es, depthL es ≤ fuel →
      walkEntriesF o dst fuel cur es = some (walkEntries o dst cur es) := by
  intro fuel cur es
  induction fuel, cur, es using walkEntriesF.induct o dst with
  | case1 fuel cur =>
    intro _
    simp [walkEntriesF, walkEntries]
  | case2 fuel cur name rest ih =>
    intro hdep
    simp only [depthL, depthE, Nat.max_le] at hdep
    simp only [walkEntriesF, walkEntries]
    exact ih hdep.2
  | case3 fuel cur n sub rest hskip ih =>
    intro hdep
    simp only [depthL, depthE, Nat.max_le] at hdep
    have h := ih hdep.2
    cases fuel with
    | zero =>
      rw [walkEntriesF.eq_3, if_pos hskip, h, walkEntries, if_pos hskip]
    | succ f =>
      rw [walkEntriesF.eq_4, if_pos hskip, h, walkEntries, if_pos hskip]
  | case4 cur n sub rest hne =>
    intro hdep
    exfalso
    simp only [depthL, depthE, Nat.max_le] at hdep
    omega
  | case5 cur n sub rest hne f h1 ihsub =>
    intro hdep
    exfalso
    simp only [depthL, depthE, Nat.max_le] at hdep
    have hsub := ihsub (by omega)
    by_cases hit : o.iterFails (cur ++ [n]) = true <;>
      simp [hit, hsub] at h1
  | case6 cur n sub rest hne f b1 h1 h2 ihsub ihrest =>
    intro hdep
    exfalso
    simp only [depthL, depthE, Nat.max_le] at hdep
    have hrest := ihrest (by omega)
    rw [hrest] at h2
    simp at h2
  | case7 cur n sub rest hne f b1 h1 b2 h2 ihsub ihrest =>
    intro hdep
    simp only [depthL, depthE, Nat.max_le] at hdep
    have hsub := ihsub (by omega)
    have hrest := ihrest (by omega)
    by_cases hit : o.iterFails (cur ++ [n]) = true <;>
      simp [walkEntriesF, walkEntries, if_neg hne, hit, hsub, hrest]
  | case8 fuel cur n rest hmk =>
    intro _
    simp only [walkEntriesF, walkEntries, if_pos hmk]
  | case9 fuel cur n rest hmk ih =>
    intro hdep
    simp only [depthL, depthE, Nat.max_le] at hdep
    simp only [walkEntriesF, walkEntries, if_neg hmk, ih hdep.2]
    rfl

theorem iterFails_prop_false {o : Oracle} (hIter : ∀ q, o.iterFails q = false) (cur : FsPath) :
    ¬ o.iterFails cur = true := by
  rw [hIter cur]
  simp

theorem okMoves_run {o : Oracle} {dst : FsPath}
    (hIter : ∀ q, o.iterFails q = false) (hMk : ∀ q, o.mkdirFails q = false)
    (cur : FsPath) (es : List Entry) :
    okMoves (copy_and_sort o dst cur es)
      = (filesUnder dst cur es).filterMap (moveResult o dst) := by
  rw [copy_and_sort, if_neg (iterFails_prop_false hIter cur), okMoves_enter]
  exact okMoves_walk hIter hMk cur es

theorem failMoves_run {o : Oracle} {dst : FsPath}
    (hIter : ∀ q, o.iterFails q = false) (hMk : ∀ q, o.mkdirFails q = false)
    (cur : FsPath) (es : List Entry) :
    failMoves (copy_and_sort o dst cur es)
      = (filesUnder dst cur es).filterMap (failResult o) := by
  rw [copy_and_sort, if_neg (iterFails_prop_false hIter cur), failMoves_enter]
  exact failMoves_walk hIter hMk cur es

theorem ne_dst_extend2 {dst q : FsPath} {x y m : String}
    (hq : dst.isPrefixOf q = false) : q ++ [m] ≠ dst ++ [x, y] := by
  intro he
  have hpre : dst.isPrefixOf (q ++ [m]) = true := by
    rw [he]
    exact self_isPrefixOf_append dst [x, y]
  rw [List.isPrefixOf_iff_prefix] at hpre
  rcases List.prefix_concat_iff.mp hpre with h1 | h2
  · have hlen := congrArg List.length (h1.trans he)
    simp [List.length_append] at hlen
  · rw [← List.isPrefixOf_iff_prefix] at h2
    rw [h2] at hq
    exact Bool.true_eq_false.mp hq

/-- In a walk without enumeration or mkdir failures, every reachable
file whose move fails contributes the adjacent event pair mkdir of its
bucket then its own move diagnostic: the bucket directory is created
right before the failing move is attempted. -/
theorem walk_mkdir_then_moveFail {o : Oracle} {dst : FsPath}
    (hIter : ∀ q, o.iterFails q = false) (hMk : ∀ q, o.mkdirFails q = false) :
    ∀ cur es p n, (p, n) ∈ filesUnder dst cur es → o.moveFails (p ++ [n]) = true →
      ∃ pre post, walkEntries o dst cur es
        = pre ++ Event.mkdir (dst ++ [bucketOf n]) :: Event.moveFail (p ++ [n]) :: post := by
  intro cur es
  induction cur, es using walkEntries.induct o dst with
  | case1 cur =>
    intro p n hmem _
    simp [filesUnder] at hmem
  | case2 cur name rest ih =>
    intro p n hmem hfail
    rw [filesUnder] at hmem
    rw [walkEntries]
    exact ih p n hmem hfail
  | case3 cur n0 sub rest hskip ih =>
    intro p n hmem hfail
    rw [filesUnder, if_pos hskip] at hmem
    rw [List.nil_append] at hmem
    rw [walkEntries, if_pos hskip]
    exact ih p n hmem hfail
  | case4 cur n0 sub rest hne ihsub ihrest =>
    intro p n hmem hfail
    rw [filesUnder, if_neg hne] at hmem
    rw [walkEntries, if_neg hne, if_neg (iterFails_prop_false hIter (cur ++ [n0]))]
    rcases List.mem_append.mp hmem with h1 | h2
    · obtain ⟨pre, post, heq⟩ := ihsub p n h1 hfail
      rw [heq]
      exact ⟨Event.enter (cur ++ [n0]) :: pre,
        post ++ walkEntries o dst cur rest, by simp⟩
    · obtain ⟨pre, post, heq⟩ := ihrest p n h2 hfail
      rw [heq]
      exact ⟨(Event.enter (cur ++ [n0]) :: walkEntries o dst (cur ++ [n0]) sub) ++ pre,
        post, by simp⟩
  | case5 cur n0 rest hmk =>
    intro p n hmem hfail
    rw [hMk] at hmk
    simp at hmk
  | case6 cur n0 rest hmk ih =>
    intro p n hmem hfail
    rw [filesUnder] at hmem
    rw [walkEntries, if_neg hmk]
    rcases List.mem_cons.mp hmem with h1 | h2
    · rw [Prod.mk.injEq] at h1
      obtain ⟨rfl, rfl⟩ := h1
      rw [if_pos hfail]
      exact ⟨[], walkEntries o dst p rest, by simp⟩
    · obtain ⟨pre, post, heq⟩ := ih p n h2 hfail
      by_cases hmv : o.moveFails (cur ++ [n0]) = true
      · rw [if_pos hmv, heq]
        exact ⟨Event.mkdir (dst ++ [bucketOf n0]) :: Event.moveFail (cur ++ [n0]) :: pre,
          post, by simp⟩
      · rw [if_neg hmv, heq]
        exact ⟨Event.mkdir (dst ++ [bucketOf n0])
            :: Event.moveOk (cur ++ [n0]) (dst ++ [bucketOf n0, n0]) :: pre,
          post, by simp⟩

/-- C1 (amended: the file name must have a non-empty stem before the
dot, since Python's suffix rule sends leading-dot names such as .bashrc
to the no_extension bucket): in a failure-free run started below a
directory not at or under the destination root, every reachable file
named stem.EXT with stem and EXT non-empty and EXT dot-free is moved
from its original directory straight to the bucket named by the
lowercased extension directly under the destination root (the original
subdirectory structure is discarded), no performed move targets its
original path again, and no performed move takes the bucket entry away
afterwards. -/
theorem c1_extension_bucketing {o : Oracle} {dst cur p : FsPath} {es : List Entry}
    {stem ext : String}
    (hIter : ∀ q, o.iterFails q = false) (hMk : ∀ q, o.mkdirFails q = false)
    (hMv : ∀ q, o.moveFails q = false)
    (hcur : dst.isPrefixOf cur = false)
    (hmem : (p, stem ++ "." ++ ext) ∈ filesUnder dst cur es)
    (hstem : stem.toList ≠ []) (hext : ext.toList ≠ []) (hdot : '.' ∉ ext.toList) :
    (p ++ [stem ++ "." ++ ext], dst ++ [lowerStr ext, stem ++ "." ++ ext])
        ∈ okMoves (copy_and_sort o dst cur es)
      ∧ (∀ mv ∈ okMoves (copy_and_sort o dst cur es), mv.2 ≠ p ++ [stem ++ "." ++ ext])
      ∧ (∀ mv ∈ okMoves (copy_and_sort o dst cur es),
          mv.1 ≠ dst ++ [lowerStr ext, stem ++ "." ++ ext]) := by
  have hb := bucketOf_concat hstem hext hdot
  have hok : okMoves (copy_and_sort o dst cur es)
      = (filesUnder dst cur es).filterMap (moveResult o dst) :=
    okMoves_run hIter hMk cur es
  refine ⟨?h1, ?h2, ?h3⟩
  case h1 =>
    rw [hok]
    refine List.mem_filterMap.mpr ⟨(p, stem ++ "." ++ ext), hmem, ?hr⟩
    simp [moveResult, hMv, hb]
  case h2 =>
    intro mv hmv he
    rw [hok] at hmv
    obtain ⟨x, hx, hres⟩ := List.mem_filterMap.mp hmv
    rw [moveResult, if_neg (by rw [hMv]; simp)] at hres
    injection hres with h4
    subst h4
    have hxp : dst.isPrefixOf p = false := filesUnder_not_under cur es hcur _ hmem
    exact ne_dst_extend2 hxp he.symm
  case h3 =>
    intro mv hmv he
    rw [hok] at hmv
    obtain ⟨x, hx, hres⟩ := List.mem_filterMap.mp hmv
    rw [moveResult, if_neg (by rw [hMv]; simp)] at hres
    injection hres with h4
    subst h4
    have hxq : dst.isPrefixOf x.1 = false := filesUnder_not_under cur es hcur x hx
    exact ne_dst_extend2 hxq he

/-- C1 as literally stated fails on leading-dot names: the file
src/.bashrc, of the form name.EXT with EXT the non-empty string bashrc,
is moved by a failure-free run to dst/no_extension/.bashrc, not to
dst/bashrc/.bashrc. -/
theorem c1_counterexample :
    okMoves (copy_and_sort noFail ["dst"] ["src"] [Entry.file ".bashrc"])
        = [(["src", ".bashrc"], ["dst", "no_extension", ".bashrc"])]
      ∧ (["src", ".bashrc"], ["dst", "bashrc", ".bashrc"])
          ∉ okMoves (copy_and_sort noFail ["dst"] ["src"] [Entry.file ".bashrc"]) := by
  have hb : bucketOf ".bashrc" = "no_extension" := by decide
  have h : copy_and_sort noFail ["dst"] ["src"] [Entry.file ".bashrc"]
      = [Event.enter ["src"], Event.mkdir ["dst", "no_extension"],
         Event.moveOk ["src", ".bashrc"] ["dst", "no_extension", ".bashrc"]] := by
    simp [copy_and_sort, walkEntries, noFail, hb]
  rw [h]
  constructor
  · rfl
  · decide

theorem c1_extension_bucketing_witness :
    (["s"] ++ ["a" ++ "." ++ "TXT"], ["d"] ++ [lowerStr "TXT", "a" ++ "." ++ "TXT"])
      ∈ okMoves (copy_and_sort noFail ["d"] ["s"] [Entry.file "a.TXT"]) :=
  (c1_extension_bucketing (fun _ => rfl) (fun _ => rfl) (fun _ => rfl) (by decide)
    (by simp [filesUnder]) (by decide) (by decide) (by decide)).1

/-- C2 (amended: a name whose last dot is its leading character also
has an empty extension, per Python suffix semantics): the bucket the
program computes is the lowercased substring after the last dot of the
base name when that dot is interior, and the literal no_extension
exactly when the name has no dot, the last dot is the final character,
or the last dot is the leading character. -/
theorem c2_extension_rule (name : String) : bucketOf name = amendedBucket name := by
  rcases hs : splitLastDot name.toList with _ | ⟨b, a⟩
  · have hs2 : splitLastDot name.data = none := hs
    simp [bucketOf, pySuffix, amendedBucket, hs, hs2]
  · have hs2 : splitLastDot name.data = some (b, a) := hs
    by_cases hb : b = []
    · subst hb
      simp [bucketOf, pySuffix, amendedBucket, hs, hs2]
    · by_cases ha : a = []
      · subst ha
        simp [bucketOf, pySuffix, amendedBucket, hs, hs2, hb]
      · rw [bucketOf_eq_of_split hs hb ha]
        simp [amendedBucket, hs, hs2, hb, ha]

/-- C2 as literally stated fails on leading-dot names: for .bashrc the
substring after the last dot is the non-empty string bashrc, yet the
program computes the bucket no_extension. -/
theorem c2_counterexample :
    bucketOf ".bashrc" = "no_extension"
      ∧ claimBucket ".bashrc" = "bashrc"
      ∧ bucketOf ".bashrc" ≠ claimBucket ".bashrc" := by
  refine ⟨by rfl, by rfl, by decide⟩

/-- C3: started below a directory that is not at or under the
destination root, the run never enumerates the destination root or
anything below it (the skip at lines 40-41 fires on every directory
entry resolving to the destination), so files already moved under the
destination are never re-walked, and every file the run moves lies in a
directory not at or under the destination root, so those files are
never re-moved; the walk is moreover a total function, so such a run
terminates even with the destination nested inside the source. -/
theorem c3_destination_never_descended (o : Oracle) (dst cur : FsPath) (es : List Entry)
    (hcur : dst.isPrefixOf cur = false) :
    (∀ p, Event.enter p ∈ copy_and_sort o dst cur es → dst.isPrefixOf p = false)
    ∧ (∀ a b, Event.moveOk a b ∈ copy_and_sort o dst cur es →
        ∃ q m, a = q ++ [m] ∧ dst.isPrefixOf q = false) := by
  rw [copy_and_sort]
  by_cases hit : o.iterFails cur = true
  · rw [if_pos hit]
    constructor
    · intro p hp
      simp at hp
    · intro a b hab
      simp at hab
  · rw [if_neg hit]
    constructor
    · intro p hp
      rcases List.mem_cons.mp hp with h1 | h2
      · injection h1 with h3
        rw [h3]
        exact hcur
      · exact (walk_not_under cur es hcur).1 p h2
    · intro a b hab
      rcases List.mem_cons.mp hab with h1 | h2
      · exact absurd h1 (by simp)
      · exact (walk_not_under cur es hcur).2 a b h2

theorem c3_destination_never_descended_witness :
    List.isPrefixOf ["s", "dist"] ["s"] = false
      ∧ List.isPrefixOf ["s", "dist"] ["s", "sub"] = false :=
  ⟨by decide,
    (c3_destination_never_descended noFail ["s", "dist"] ["s"]
        [Entry.dir "sub" [], Entry.dir "dist" [Entry.file "x.txt"]] (by decide)).1
      ["s", "sub"] (by simp [copy_and_sort, walkEntries, noFail])⟩

/-- C4: in a run whose enumerations and bucket mkdirs succeed, a file
whose move fails is reported by a per-file diagnostic naming its path,
is not moved (no performed move has it as source), and the walk
continues: every other reachable file whose move does not fail is still
moved to its bucket, in the same directory, in sibling directories and
everywhere else — no move failure aborts the run. -/
theorem c4_move_failure_isolated {o : Oracle} {dst cur p : FsPath} {es : List Entry} {n : String}
    (hIter : ∀ q, o.iterFails q = false) (hMk : ∀ q, o.mkdirFails q = false)
    (hmem : (p, n) ∈ filesUnder dst cur es) (hfail : o.moveFails (p ++ [n]) = true) :
    (p ++ [n]) ∈ failMoves (copy_and_sort o dst cur es)
    ∧ (∀ mv ∈ okMoves (copy_and_sort o dst cur es), mv.1 ≠ p ++ [n])
    ∧ (∀ q m, (q, m) ∈ filesUnder dst cur es → o.moveFails (q ++ [m]) = false →
        (q ++ [m], dst ++ [bucketOf m, m]) ∈ okMoves (copy_and_sort o dst cur es)) := by
  have hok : okMoves (copy_and_sort o dst cur es)
      = (filesUnder dst cur es).filterMap (moveResult o dst) :=
    okMoves_run hIter hMk cur es
  have hfl : failMoves (copy_and_sort o dst cur es)
      = (filesUnder dst cur es).filterMap (failResult o) :=
    failMoves_run hIter hMk cur es
  refine ⟨?h1, ?h2, ?h3⟩
  case h1 =>
    rw [hfl]
    exact List.mem_filterMap.mpr ⟨(p, n), hmem, by simp [failResult, hfail]⟩
  case h2 =>
    intro mv hmv he
    rw [hok] at hmv
    obtain ⟨x, hx, hres⟩ := List.mem_filterMap.mp hmv
    rw [moveResult] at hres
    by_cases hmvx : o.moveFails (x.1 ++ [x.2]) = true
    · rw [if_pos hmvx] at hres
      exact absurd hres (by simp)
    · rw [if_neg hmvx] at hres
      injection hres with h4
      subst h4
      have he2 : x.1 ++ [x.2] = p ++ [n] := he
      rw [he2] at hmvx
      exact hmvx hfail
  case h3 =>
    intro q m hqm hq2
    rw [hok]
    exact List.mem_filterMap.mpr ⟨(q, m), hqm, by simp [moveResult, hq2]⟩

theorem c4_move_failure_isolated_witness :
    ["src"] ++ ["bad.txt"] ∈ failMoves (copy_and_sort oMove ["dst"] ["src"]
        [Entry.file "bad.txt", Entry.file "ok.md"])
    ∧ (["src"] ++ ["ok.md"], ["dst"] ++ [bucketOf "ok.md", "ok.md"])
        ∈ okMoves (copy_and_sort oMove ["dst"] ["src"]
            [Entry.file "bad.txt", Entry.file "ok.md"]) :=
  ⟨(c4_move_failure_isolated (p := ["src"]) (n := "bad.txt") (fun _ => rfl) (fun _ => rfl)
      (by simp [filesUnder]) (by decide)).1,
   (c4_move_failure_isolated (p := ["src"]) (n := "bad.txt") (fun _ => rfl) (fun _ => rfl)
      (by simp [filesUnder]) (by decide)).2.2
     ["src"] "ok.md" (by simp [filesUnder]) (by decide)⟩

/-- C5: when enumerating the children of a subdirectory fails, the walk
of that subtree produces exactly one directory-level diagnostic naming
that subdirectory and nothing else (whatever the subtree contains), no
exception escapes — the caller goes on to process the remaining sibling
entries exactly as it otherwise would. -/
theorem c5_dir_enumeration_failure_isolated {o : Oracle} {dst cur : FsPath} {n : String}
    {sub rest : List Entry}
    (hIter : o.iterFails (cur ++ [n]) = true) (hne : cur ++ [n] ≠ dst) :
    walkEntries o dst cur (Entry.dir n sub :: rest)
      = Event.dirFail (cur ++ [n]) :: walkEntries o dst cur rest := by
  rw [walkEntries, if_neg hne, if_pos hIter]
  rfl

theorem c5_dir_enumeration_failure_isolated_witness :
    walkEntries oIter ["d"] ["src"] [Entry.dir "locked" [Entry.file "a.md"]]
      = Event.dirFail (["src"] ++ ["locked"]) :: walkEntries oIter ["d"] ["src"] [] :=
  c5_dir_enumeration_failure_isolated (by decide) (by decide)

/-- C6: an invalid source (missing or not a directory) makes the run
emit only the source diagnostic — the destination root is not created,
the Sorter is not invoked, nothing is mutated; a failing destination
mkdir makes the run emit only the destination diagnostic — the Sorter
is not invoked, no file is touched; in every other case the run creates
the destination root, invokes the Sorter once, and always reaches the
completion notice, whatever the oracle does during the walk — those two
pre-checks are the only run-aborting errors. -/
theorem c6_only_prechecks_abort (sE sD dF : Bool) (o : Oracle) (src dst : FsPath)
    (tree : List Entry) :
    ((sE && sD) = false → mainRun sE sD dF o src dst tree = [MainEvent.srcDiag])
    ∧ ((sE && sD) = true → dF = true → mainRun sE sD dF o src dst tree = [MainEvent.dstDiag])
    ∧ ((sE && sD) = true → dF = false →
        mainRun sE sD dF o src dst tree
          = [MainEvent.mkdirDst, MainEvent.sortRun (copy_and_sort o dst src tree),
             MainEvent.doneMsg]) := by
  cases sE <;> cases sD <;> cases dF <;> simp [mainRun]

theorem c6_only_prechecks_abort_witness :
    mainRun false true false noFail ["s"] ["d"] [] = [MainEvent.srcDiag]
    ∧ mainRun true true true noFail ["s"] ["d"] [] = [MainEvent.dstDiag]
    ∧ mainRun true true false noFail ["s"] ["d"] []
        = [MainEvent.mkdirDst, MainEvent.sortRun (copy_and_sort noFail ["d"] ["s"] []),
           MainEvent.doneMsg] :=
  ⟨(c6_only_prechecks_abort false true false noFail ["s"] ["d"] []).1 rfl,
   (c6_only_prechecks_abort true true true noFail ["s"] ["d"] []).2.1 rfl rfl,
   (c6_only_prechecks_abort true true false noFail ["s"] ["d"] []).2.2 rfl rfl⟩

/-- C7: the walk is a total function of the finite directory tree
(symlink loops are out of scope of the model), and a recursion budget
equal to the depth of the tree suffices: the fueled walk with any
budget at least the tree depth computes exactly the same run, so the
recursion depth of sort(currentDir, destinationRoot) is bounded by the
depth of the real directory tree. -/
theorem c7_walk_terminates_depth_bounded {o : Oracle} {dst cur : FsPath} {es : List Entry}
    {fuel : Nat} (h : depthL es ≤ fuel) :
    copyAndSortF o dst fuel cur es = some (copy_and_sort o dst cur es) := by
  unfold copyAndSortF copy_and_sort
  by_cases hit : o.iterFails cur = true
  · rw [if_pos hit, if_pos hit]
  · rw [if_neg hit, if_neg hit, walkEntriesF_eq fuel cur es h]
    rfl

theorem c7_walk_terminates_depth_bounded_witness :
    depthL [Entry.dir "a" [Entry.file "x.txt"]] ≤ 1
    ∧ copyAndSortF noFail ["d"] 1 ["s"] [Entry.dir "a" [Entry.file "x.txt"]]
      = some (copy_and_sort noFail ["d"] ["s"] [Entry.dir "a" [Entry.file "x.txt"]]) :=
  ⟨by simp [depthL, depthE],
   c7_walk_terminates_depth_bounded (by simp [depthL, depthE])⟩

/-- C8: the bucket directory of a file is ensured right before the move
is attempted, so when the move fails in a run whose enumerations and
mkdirs succeed, the trace contains the mkdir of that file's bucket
immediately followed by the file's move diagnostic: the source file
stays put but the destination side is not fully unchanged — a freshly
created, possibly empty bucket directory for that extension can remain
under the destination root. -/
theorem c8_bucket_mkdir_precedes_failed_move {o : Oracle} {dst cur p : FsPath}
    {es : List Entry} {n : String}
    (hIter : ∀ q, o.iterFails q = false) (hMk : ∀ q, o.mkdirFails q = false)
    (hmem : (p, n) ∈ filesUnder dst cur es) (hfail : o.moveFails (p ++ [n]) = true) :
    ∃ pre post, copy_and_sort o dst cur es
      = pre ++ Event.mkdir (dst ++ [bucketOf n]) :: Event.moveFail (p ++ [n]) :: post := by
  obtain ⟨pre, post, heq⟩ := walk_mkdir_then_moveFail hIter hMk cur es p n hmem hfail
  rw [copy_and_sort, if_neg (iterFails_prop_false hIter cur), heq]
  exact ⟨Event.enter cur :: pre, post, rfl⟩

theorem c8_bucket_mkdir_precedes_failed_move_witness :
    ∃ pre post, copy_and_sort oMove ["dst"] ["src"] [Entry.file "bad.txt"]
      = pre ++ Event.mkdir (["dst"] ++ [bucketOf "bad.txt"])
          :: Event.moveFail (["src"] ++ ["bad.txt"]) :: post :=
  c8_bucket_mkdir_precedes_failed_move (p := ["src"]) (n := "bad.txt")
    (fun _ => rfl) (fun _ => rfl) (by simp [filesUnder]) (by decide)

/-- C9: an OSError from creating a file's bucket directory is not
caught by the per-file move handler but by the enclosing
directory-level handler: the run emits a diagnostic naming the
directory currently being walked (not the file), no per-file move
diagnostic, and all remaining unprocessed entries of that directory are
skipped — whatever they are. -/
theorem c9_mkdir_failure_aborts_directory {o : Oracle} {dst cur : FsPath} {n : String}
    {rest : List Entry}
    (hIter : o.iterFails cur = false) (hMk : o.mkdirFails (dst ++ [bucketOf n]) = true) :
    copy_and_sort o dst cur (Entry.file n :: rest)
      = [Event.enter cur, Event.dirFail cur] := by
  rw [copy_and_sort, if_neg (by simp [hIter]), walkEntries, if_pos hMk]

theorem c9_mkdir_failure_aborts_directory_witness :
    copy_and_sort oMkdir ["dst"] ["src"] [Entry.file "a.txt", Entry.file "b.md"]
      = [Event.enter ["src"], Event.dirFail ["src"]] :=
  c9_mkdir_failure_aborts_directory (by decide) (by decide)

/-- C10: the destination-equality check guards only subdirectory
entries, never the initial argument: a run whose current directory is
the destination root itself still enumerates the destination and moves
its direct files, and the files of its (necessarily non-destination)
subdirectories, into buckets beneath it. -/
theorem c10_initial_dir_not_checked {o : Oracle} {dst : FsPath} {es sub : List Entry}
    {n d m : String}
    (hIter : ∀ q, o.iterFails q = false) (hMk : ∀ q, o.mkdirFails q = false)
    (hMv : ∀ q, o.moveFails q = false)
    (hn : Entry.file n ∈ es) (hd : Entry.dir d sub ∈ es) (hm : Entry.file m ∈ sub) :
    Event.enter dst ∈ copy_and_sort o dst dst es
    ∧ (dst ++ [n], dst ++ [bucketOf n, n]) ∈ okMoves (copy_and_sort o dst dst es)
    ∧ (dst ++ [d] ++ [m], dst ++ [bucketOf m, m]) ∈ okMoves (copy_and_sort o dst dst es) := by
  have hok : okMoves (copy_and_sort o dst dst es)
      = (filesUnder dst dst es).filterMap (moveResult o dst) :=
    okMoves_run hIter hMk dst es
  have hne : dst ++ [d] ≠ dst := by
    intro h
    have hl := congrArg List.length h
    simp at hl
  refine ⟨?h1, ?h2, ?h3⟩
  case h1 =>
    rw [copy_and_sort, if_neg (iterFails_prop_false hIter dst)]
    exact List.mem_cons_self _ _
  case h2 =>
    rw [hok]
    exact List.mem_filterMap.mpr
      ⟨(dst, n), file_mem_filesUnder dst es hn, by simp [moveResult, hMv]⟩
  case h3 =>
    rw [hok]
    exact List.mem_filterMap.mpr
      ⟨(dst ++ [d], m), nested_file_mem_filesUnder dst es hd hne hm,
        by simp [moveResult, hMv]⟩

theorem c10_initial_dir_not_checked_witness :
    Event.enter ["d"] ∈ copy_and_sort noFail ["d"] ["d"]
        [Entry.file "a.TXT", Entry.dir "sub" [Entry.file "b.md"]]
    ∧ (["d"] ++ ["a.TXT"], ["d"] ++ [bucketOf "a.TXT", "a.TXT"])
        ∈ okMoves (copy_and_sort noFail ["d"] ["d"]
            [Entry.file "a.TXT", Entry.dir "sub" [Entry.file "b.md"]])
    ∧ (["d"] ++ ["sub"] ++ ["b.md"], ["d"] ++ [bucketOf "b.md", "b.md"])
        ∈ okMoves (copy_and_sort noFail ["d"] ["d"]
            [Entry.file "a.TXT", Entry.dir "sub" [Entry.file "b.md"]]) :=
  c10_initial_dir_not_checked (fun _ => rfl) (fun _ => rfl) (fun _ => rfl)
    (List.mem_cons_self _ _)
    (List.mem_cons_of_mem _ (List.mem_cons_self _ _))
    (List.mem_cons_self _ _)

end FileSorter
